import Mathlib

/-!
Shallow embedding of `src/github_stats.py`, a script that aggregates a
GitHub user's repository, language and commit statistics through the
paginated GraphQL API.  Network round trips are modelled by lists of
responses handed to the loops that the Python code drives with
`while has_next_page`; machine-level JSON decoding is modelled by typed
records with `Option` for nullable fields.  Commit timestamps (parsed
ISO-8601 instants, trusted by the code) are modelled as integers, and the
floating-point language percentage as a rational number.
-/

/-- One language edge of a repository's `languages.edges` answer:
`{size, node: {name, color}}`. -/
structure LangEdge where
  name : String
  size : Nat
  color : String
deriving DecidableEq, Repr

/-- One repository node of the `GetRepositories` answer. -/
structure RepoNode where
  name : String
  owner : String
  stargazerCount : Nat
  forkCount : Nat
  languages : List LangEdge
deriving DecidableEq, Repr

/-- One page of the repository listing: `nodes` plus
`pageInfo {endCursor, hasNextPage}`. -/
structure RepoPage where
  nodes : List RepoNode
  endCursor : Option String
  hasNextPage : Bool
deriving DecidableEq, Repr

/-- A failure raised by `graphql_request` (`response.raise_for_status()`)
or by interpreting a malformed answer; both propagate out of
`get_all_repositories`, which has no handler. -/
inductive QueryError where
  | httpError (status : Nat)
  | malformedResponse
deriving DecidableEq, Repr

/-- The remote's answer to one repository-listing request: either an
exception or a page. -/
abbrev RepoResponse := Except QueryError RepoPage

/-- The `while has_next_page` loop of `get_all_repositories`
(src/github_stats.py lines 121-134), driven by the list of answers the
remote returns to consecutive requests.  The first argument is the cursor
of the next request.  On success it returns the accumulated `nodes` in page
order together with the trace of cursors requested; an exception response
propagates.  (An exhausted response list models a remote that answers no
further request; the theorems only use runs that terminate inside the
list.) -/
def runRepoLoop : Option String → List RepoResponse → Except QueryError (List RepoNode × List (Option String))
  | _, [] => Except.ok ([], [])
  | c, r :: rest =>
    match r with
    | Except.error e => Except.error e
    | Except.ok p =>
      if p.hasNextPage then
        match runRepoLoop p.endCursor rest with
        | Except.error e => Except.error e
        | Except.ok (items, cs) => Except.ok (p.nodes ++ items, c :: cs)
      else Except.ok (p.nodes, [c])

/-- `get_all_repositories`: starts with `cursor = None` and loops while
`hasNextPage`. -/
def get_all_repositories (responses : List RepoResponse) : Except QueryError (List RepoNode × List (Option String)) :=
  runRepoLoop none responses

/-- One commit node of the `GetCommits` answer. -/
structure CommitNode where
  additions : Nat
  deletions : Nat
  committedDate : Int
deriving DecidableEq, Repr

/-- One page of a repository's commit history. -/
structure CommitPage where
  nodes : List CommitNode
  endCursor : Option String
  hasNextPage : Bool
deriving DecidableEq, Repr

/-- The remote's answer to one `GetCommits` request, as `get_commit_stats`
interprets it: an exception inside the `try` block, a response whose
`repository`/`defaultBranchRef`/`target` chain is null (the `break` at
line 149), or a history page. -/
inductive CommitResponse where
  | failure
  | noHistory
  | page (p : CommitPage)
deriving DecidableEq, Repr

/-- The running aggregate of `get_commit_stats`: total additions,
deletions and commit count with the earliest and latest commit date seen
so far (`None` before any commit is processed). -/
structure CommitAggregate where
  additions : Nat
  deletions : Nat
  commits : Nat
  earliest : Option Int
  latest : Option Int
deriving DecidableEq, Repr

/-- The initial value of the running aggregate: zeros and `None` dates
(src/github_stats.py lines 138-139). -/
def identityAggregate : CommitAggregate :=
  { additions := 0, deletions := 0, commits := 0, earliest := none, latest := none }

/-- The per-commit body of the `for commit in commits` loop
(lines 158-166): add the commit's additions and deletions and update the
earliest/latest dates. -/
def foldNode (acc : CommitAggregate) (c : CommitNode) : CommitAggregate :=
  { acc with
    additions := acc.additions + c.additions
    deletions := acc.deletions + c.deletions
    earliest :=
      match acc.earliest with
      | none => some c.committedDate
      | some e => if c.committedDate < e then some c.committedDate else some e
    latest :=
      match acc.latest with
      | none => some c.committedDate
      | some l => if c.committedDate > l then some c.committedDate else some l }

/-- Processing one non-empty commit page: `total_commits += len(commits)`
(line 156) followed by the per-commit loop. -/
def foldPage (acc : CommitAggregate) (nodes : List CommitNode) : CommitAggregate :=
  List.foldl foldNode { acc with commits := acc.commits + nodes.length } nodes

/-- The `while has_next_page` loop of `get_commit_stats`
(lines 136-175), driven by the list of answers to consecutive requests.
Returns the final aggregate and the number of requests made.  A `failure`
answer is caught by the `except` handler, which sets
`has_next_page = False` and keeps the aggregate accumulated so far; a
null `repository`/`defaultBranchRef`/`target` chain and an empty commit
batch both `break`.  (An exhausted response list models a remote that
answers no further request.) -/
def runCommitLoop : CommitAggregate → List CommitResponse → CommitAggregate × Nat
  | acc, [] => (acc, 0)
  | acc, r :: rest =>
    match r with
    | CommitResponse.failure => (acc, 1)
    | CommitResponse.noHistory => (acc, 1)
    | CommitResponse.page p =>
      if p.nodes.isEmpty then (acc, 1)
      else
        if p.hasNextPage then
          let res := runCommitLoop (foldPage acc p.nodes) rest
          (res.1, res.2 + 1)
        else (foldPage acc p.nodes, 1)

/-- `get_commit_stats`: the commit-history loop started from the all-zero
aggregate. -/
def get_commit_stats (responses : List CommitResponse) : CommitAggregate × Nat :=
  runCommitLoop identityAggregate responses

/-- The earliest-date update of `main` (lines 252-253):
`if earliest and (first_commit_date is None or earliest < first_commit_date)`. -/
def mergeEarliest (acc r : Option Int) : Option Int :=
  match r with
  | none => acc
  | some e =>
    match acc with
    | none => some e
    | some f => if e < f then some e else some f

/-- The latest-date update of `main` (lines 254-255):
`if latest and (latest_commit_date is None or latest > latest_commit_date)`. -/
def mergeLatest (acc r : Option Int) : Option Int :=
  match r with
  | none => acc
  | some l =>
    match acc with
    | none => some l
    | some m => if l > m then some l else some m

/-- The body of the `for result in track(results, ...)` loop in `main`
(lines 246-255): add the per-repository sums into the running totals and
fold the earliest/latest dates with `None` as identity. -/
def mergeAggregate (acc r : CommitAggregate) : CommitAggregate :=
  { additions := acc.additions + r.additions
    deletions := acc.deletions + r.deletions
    commits := acc.commits + r.commits
    earliest := mergeEarliest acc.earliest r.earliest
    latest := mergeLatest acc.latest r.latest }

/-- The sequential fold that `main` performs over all per-repository
results, starting from zero totals and `None` dates (lines 237-255). -/
def foldAggregates (l : List CommitAggregate) : CommitAggregate :=
  List.foldl mergeAggregate identityAggregate l

/-- The per-language record held in the `language_stats` dict:
accumulated byte size and the display color. -/
structure LangData where
  size : Nat
  color : String
deriving DecidableEq, Repr

/-- The body of the `for lang_edge in repo['languages']['edges']` loop
(lines 223-233) acting on the `language_stats` dict, modelled as an
insertion-ordered association list: a language already present has its
size increased in place (color untouched); a new language is appended
with the edge's size and color. -/
def addEdge : List (String × LangData) → LangEdge → List (String × LangData)
  | [], e => [(e.name, { size := e.size, color := e.color })]
  | (n, d) :: rest, e =>
    if n = e.name then (n, { size := d.size + e.size, color := d.color }) :: rest
    else (n, d) :: addEdge rest e

/-- The `language_stats` dict after folding every language edge of every
repository, in descriptor order (lines 219-233). -/
def buildLangStats (edges : List LangEdge) : List (String × LangData) :=
  List.foldl addEdge [] edges

/-- The flattened list of language edges over a repository list, in the
order the nested loops of `main` visit them. -/
def collectEdges (repos : List RepoNode) : List LangEdge :=
  List.flatten (repos.map (fun r => r.languages))

/-- `total_lang_size`: the running sum `total_lang_size += lang_size`
over every edge (line 229). -/
def langTotalSize (edges : List LangEdge) : Nat :=
  (edges.map (fun e => e.size)).sum

/-- The percentage computation of line 262:
`(size / total) * 100 if total > 0 else 0`, over rationals. -/
def languagePercentage (size total : Nat) : Rat :=
  if 0 < total then ((size : Rat) / (total : Rat)) * 100 else 0

/-- One comparison step of Python's `max(..., key=...)`: the candidate
replaces the current best only on a strictly greater key, so on ties the
earlier element is kept. -/
def pickMax (best x : RepoNode) : RepoNode :=
  if x.stargazerCount > best.stargazerCount then x else best

/-- `most_popular_repo` (line 235): Python's
`max(repositories, key=lambda r: r['stargazerCount']) if repositories else None`. -/
def mostPopularRepo (repos : List RepoNode) : Option RepoNode :=
  match repos with
  | [] => none
  | r :: rest => some (List.foldl pickMax r rest)

/-- Statement apparatus: the maximum star count over a repository list
(`0` on the empty list). -/
def maxStars : List RepoNode → Nat
  | [] => 0
  | r :: rest => max r.stargazerCount (maxStars rest)

/-- Statement apparatus: the total byte size contributed to one language
by a list of edges. -/
def langSizeSum (n : String) (edges : List LangEdge) : Nat :=
  ((edges.filter (fun e => e.name == n)).map (fun e => e.size)).sum

/-- Statement apparatus: the color of the first edge mentioning a
language, if any. -/
def firstLangColor (n : String) (edges : List LangEdge) : Option String :=
  (edges.find? (fun e => e.name == n)).map (fun e => e.color)

/-- Aggregate accumulated over a list of commit pages, page after page. -/
def foldPages (acc : CommitAggregate) (pages : List CommitPage) : CommitAggregate :=
  List.foldl (fun a p => foldPage a p.nodes) acc pages

/-- The date invariant of a commit aggregate: the earliest and latest
dates are absent together, they are absent exactly when no commit was
counted, and when both are present the earliest is not after the
latest. -/
def aggInv (a : CommitAggregate) : Prop :=
  (a.earliest = none ↔ a.latest = none) ∧
  (a.earliest = none ↔ a.commits = 0) ∧
  (∀ e l : Int, a.earliest = some e → a.latest = some l → e ≤ l)

/-! ### Algebra of the aggregate merge -/

theorem mergeEarliest_some_some (a b : Int) : mergeEarliest (some a) (some b) = some (min a b) := by
  simp only [mergeEarliest]
  split_ifs with h
  · rw [min_eq_right (le_of_lt h)]
  · rw [min_eq_left (le_of_not_lt h)]

theorem mergeLatest_some_some (a b : Int) : mergeLatest (some a) (some b) = some (max a b) := by
  simp only [mergeLatest, gt_iff_lt]
  split_ifs with h
  · rw [max_eq_right (le_of_lt h)]
  · rw [max_eq_left (le_of_not_lt h)]

theorem mergeEarliest_none_right (x : Option Int) : mergeEarliest x none = x := rfl

theorem mergeEarliest_none_left (y : Option Int) : mergeEarliest none y = y := by
  cases y <;> rfl

theorem mergeLatest_none_right (x : Option Int) : mergeLatest x none = x := rfl

theorem mergeLatest_none_left (y : Option Int) : mergeLatest none y = y := by
  cases y <;> rfl

theorem mergeEarliest_comm (x y : Option Int) : mergeEarliest x y = mergeEarliest y x := by
  cases x <;> cases y <;>
    simp only [mergeEarliest_none_right, mergeEarliest_none_left,
      mergeEarliest_some_some, min_comm]

theorem mergeLatest_comm (x y : Option Int) : mergeLatest x y = mergeLatest y x := by
  cases x <;> cases y <;>
    simp only [mergeLatest_none_right, mergeLatest_none_left,
      mergeLatest_some_some, max_comm]

theorem mergeEarliest_assoc (x y z : Option Int) :
    mergeEarliest (mergeEarliest x y) z = mergeEarliest x (mergeEarliest y z) := by
  cases x <;> cases y <;> cases z <;>
    simp only [mergeEarliest_none_right, mergeEarliest_none_left,
      mergeEarliest_some_some, min_assoc]

theorem mergeLatest_assoc (x y z : Option Int) :
    mergeLatest (mergeLatest x y) z = mergeLatest x (mergeLatest y z) := by
  cases x <;> cases y <;> cases z <;>
    simp only [mergeLatest_none_right, mergeLatest_none_left,
      mergeLatest_some_some, max_assoc]

theorem mergeAggregate_comm (a b : CommitAggregate) : mergeAggregate a b = mergeAggregate b a := by
  simp only [mergeAggregate, CommitAggregate.mk.injEq]
  exact ⟨Nat.add_comm _ _, Nat.add_comm _ _, Nat.add_comm _ _,
    mergeEarliest_comm _ _, mergeLatest_comm _ _⟩

theorem mergeAggregate_assoc (a b c : CommitAggregate) :
    mergeAggregate (mergeAggregate a b) c = mergeAggregate a (mergeAggregate b c) := by
  simp only [mergeAggregate, CommitAggregate.mk.injEq]
  exact ⟨Nat.add_assoc _ _ _, Nat.add_assoc _ _ _, Nat.add_assoc _ _ _,
    mergeEarliest_assoc _ _ _, mergeLatest_assoc _ _ _⟩

theorem mergeAggregate_identity_right (a : CommitAggregate) :
    mergeAggregate a identityAggregate = a := by
  cases a
  simp [mergeAggregate, identityAggregate, mergeEarliest, mergeLatest]

theorem mergeAggregate_identity_left (a : CommitAggregate) :
    mergeAggregate identityAggregate a = a := by
  cases a with
  | mk ad de co ea la =>
    cases ea <;> cases la <;>
      simp [mergeAggregate, identityAggregate, mergeEarliest, mergeLatest]

theorem foldl_merge_eq (l : List CommitAggregate) :
    ∀ a : CommitAggregate, List.foldl mergeAggregate a l = mergeAggregate a (foldAggregates l) := by
  induction l with
  | nil => intro a; simp [foldAggregates, mergeAggregate_identity_right]
  | cons x xs ih =>
    intro a
    simp only [List.foldl_cons, foldAggregates]
    rw [ih (mergeAggregate a x), mergeAggregate_assoc]
    rw [ih (mergeAggregate identityAggregate x), mergeAggregate_identity_left]

/-- C2: the merge of commit aggregates performed in `main` (sums of
additions, deletions and commit counts; earliest and latest dates merged
by min and max with `None` as identity) is commutative and associative;
folding any permutation of the per-repository results, or folding two
sub-lists separately and merging the partial folds, gives the same total
as the sequential fold `main` performs. -/
theorem merge_comm_assoc_perm_fold (a b c : CommitAggregate)
    (l₁ l₂ m₁ m₂ : List CommitAggregate) (hp : l₁.Perm l₂) :
    mergeAggregate a b = mergeAggregate b a ∧
    mergeAggregate (mergeAggregate a b) c = mergeAggregate a (mergeAggregate b c) ∧
    foldAggregates l₁ = foldAggregates l₂ ∧
    foldAggregates (m₁ ++ m₂) = mergeAggregate (foldAggregates m₁) (foldAggregates m₂) := by
  refine ⟨mergeAggregate_comm a b, mergeAggregate_assoc a b c, ?_, ?_⟩
  · refine hp.foldl_eq' ?_ identityAggregate
    intro x _ y _ z
    rw [mergeAggregate_assoc, mergeAggregate_comm x y, mergeAggregate_assoc]
  · simp only [foldAggregates, List.foldl_append]
    rw [foldl_merge_eq m₂ (List.foldl mergeAggregate identityAggregate m₁)]
    rfl

/-- Witness for C2 at concrete inputs: folding a two-element list of
aggregates in either order gives the same result. -/
theorem merge_comm_assoc_perm_fold_witness :
    foldAggregates
        [CommitAggregate.mk 1 2 3 (some 5) (some 9),
         CommitAggregate.mk 4 0 1 (some 2) (some 3)] =
      foldAggregates
        [CommitAggregate.mk 4 0 1 (some 2) (some 3),
         CommitAggregate.mk 1 2 3 (some 5) (some 9)] :=
  (merge_comm_assoc_perm_fold identityAggregate identityAggregate identityAggregate
    [CommitAggregate.mk 1 2 3 (some 5) (some 9), CommitAggregate.mk 4 0 1 (some 2) (some 3)]
    [CommitAggregate.mk 4 0 1 (some 2) (some 3), CommitAggregate.mk 1 2 3 (some 5) (some 9)]
    [] []
    (List.Perm.swap (CommitAggregate.mk 4 0 1 (some 2) (some 3))
      (CommitAggregate.mk 1 2 3 (some 5) (some 9)) [])).2.2.1

/-! ### The commit-history loop -/

theorem runCommitLoop_good_pages (gp : List CommitPage) :
    ∀ (acc : CommitAggregate) (tail : List CommitResponse),
      (∀ p ∈ gp, p.nodes ≠ [] ∧ p.hasNextPage = true) →
      runCommitLoop acc (gp.map CommitResponse.page ++ tail) =
        ((runCommitLoop (foldPages acc gp) tail).1,
         (runCommitLoop (foldPages acc gp) tail).2 + gp.length) := by
  induction gp with
  | nil => intro acc tail _; simp [foldPages]
  | cons p ps ih =>
    intro acc tail h
    have hp := h p (List.mem_cons_self p ps)
    have hps : ∀ q ∈ ps, q.nodes ≠ [] ∧ q.hasNextPage = true :=
      fun q hq => h q (List.mem_cons_of_mem p hq)
    have hne : p.nodes.isEmpty = false := by
      cases hn : p.nodes with
      | nil => exact absurd hn hp.1
      | cons a as => rfl
    simp only [List.map_cons, List.cons_append, runCommitLoop, hne, hp.2, if_false, if_true,
      Bool.false_eq_true, ite_false, ite_true, List.append_eq]
    rw [ih (foldPage acc p.nodes) tail hps]
    have hfold : foldPages acc (p :: ps) = foldPages (foldPage acc p.nodes) ps := rfl
    rw [hfold]
    simp [List.length_cons, Nat.add_assoc]

/-- C6: when the remote answer has no repository, no default branch or no
target (the `break` at line 149), or the commit batch is empty,
`get_commit_stats` returns the all-zero identity aggregate after that
single request, without error. -/
theorem commit_stats_missing_branch_identity (rest : List CommitResponse) (c : Option String) (b : Bool) :
    get_commit_stats (CommitResponse.noHistory :: rest) = (identityAggregate, 1) ∧
    get_commit_stats (CommitResponse.page (CommitPage.mk [] c b) :: rest) = (identityAggregate, 1) := by
  exact ⟨rfl, rfl⟩

/-- C10: the commit-history loop stops at the first page whose commit
batch is empty, even when that page still reports `hasNextPage = true`:
it returns the aggregate accumulated from the preceding pages and makes
no further request. -/
theorem commit_pagination_stops_on_empty_batch (gp : List CommitPage) (c : Option String)
    (rest : List CommitResponse)
    (hgp : ∀ p ∈ gp, p.nodes ≠ [] ∧ p.hasNextPage = true) :
    get_commit_stats
        (gp.map CommitResponse.page ++ CommitResponse.page (CommitPage.mk [] c true) :: rest) =
      (foldPages identityAggregate gp, gp.length + 1) := by
  unfold get_commit_stats
  rw [runCommitLoop_good_pages gp identityAggregate _ hgp]
  have hstop : runCommitLoop (foldPages identityAggregate gp)
      (CommitResponse.page (CommitPage.mk [] c true) :: rest) =
      (foldPages identityAggregate gp, 1) := rfl
  rw [hstop]
  simp [Nat.add_comm]

/-- Witness for C10: one full page followed by an empty page that still
claims `hasNextPage = true`; the loop stops after the empty page. -/
theorem commit_pagination_stops_on_empty_batch_witness :
    get_commit_stats
        [CommitResponse.page (CommitPage.mk [CommitNode.mk 1 2 5] none true),
         CommitResponse.page (CommitPage.mk [] none true),
         CommitResponse.page (CommitPage.mk [CommitNode.mk 9 9 9] none false)] =
      (foldPages identityAggregate [CommitPage.mk [CommitNode.mk 1 2 5] none true], 2) :=
  commit_pagination_stops_on_empty_batch
    [CommitPage.mk [CommitNode.mk 1 2 5] none true] none
    [CommitResponse.page (CommitPage.mk [CommitNode.mk 9 9 9] none false)]
    (by decide)

/-- C1 counterexample: a failure on the second page of a repository's
commit history does not yield the all-zero identity aggregate; the
partial aggregate of the first page (5 additions, 2 deletions, 1 commit)
is returned instead. -/
theorem commit_failure_partial_counterexample :
    get_commit_stats
        [CommitResponse.page (CommitPage.mk [CommitNode.mk 5 2 100] none true),
         CommitResponse.failure] =
      (CommitAggregate.mk 5 2 1 (some 100) (some 100), 2) ∧
    CommitAggregate.mk 5 2 1 (some 100) (some 100) ≠ identityAggregate := by
  exact ⟨by decide, by decide⟩

/-- C1 amended: a remote failure during a repository's commit aggregation
is caught locally and stops its pagination; `get_commit_stats` returns
the aggregate accumulated from the pages already processed — the
all-zero identity exactly when the failure hits the first page — and the
overall run completes, the global fold being unchanged by a repository
that contributed the identity aggregate. -/
theorem commit_failure_tolerance_amended (gp : List CommitPage) (rest : List CommitResponse)
    (l₁ l₂ : List CommitAggregate)
    (hgp : ∀ p ∈ gp, p.nodes ≠ [] ∧ p.hasNextPage = true) :
    get_commit_stats (gp.map CommitResponse.page ++ CommitResponse.failure :: rest) =
      (foldPages identityAggregate gp, gp.length + 1) ∧
    get_commit_stats (CommitResponse.failure :: rest) = (identityAggregate, 1) ∧
    foldAggregates (l₁ ++ identityAggregate :: l₂) = foldAggregates (l₁ ++ l₂) := by
  refine ⟨?_, rfl, ?_⟩
  · unfold get_commit_stats
    rw [runCommitLoop_good_pages gp identityAggregate _ hgp]
    have hstop : runCommitLoop (foldPages identityAggregate gp)
        (CommitResponse.failure :: rest) = (foldPages identityAggregate gp, 1) := rfl
    rw [hstop]
    simp [Nat.add_comm]
  · simp only [foldAggregates, List.foldl_append, List.foldl_cons,
      mergeAggregate_identity_right]

/-- Witness for C1's amended statement: a failure after one processed
page keeps that page's aggregate, a first-page failure yields the
identity, and folding an identity contribution changes nothing. -/
theorem commit_failure_tolerance_amended_witness :
    get_commit_stats
        [CommitResponse.page (CommitPage.mk [CommitNode.mk 5 2 100] none true),
         CommitResponse.failure] =
      (foldPages identityAggregate [CommitPage.mk [CommitNode.mk 5 2 100] none true], 2) ∧
    get_commit_stats [CommitResponse.failure] = (identityAggregate, 1) ∧
    foldAggregates
        ([CommitAggregate.mk 1 1 1 (some 3) (some 4)] ++
          identityAggregate :: [CommitAggregate.mk 2 0 1 (some 7) (some 7)]) =
      foldAggregates
        ([CommitAggregate.mk 1 1 1 (some 3) (some 4)] ++
          [CommitAggregate.mk 2 0 1 (some 7) (some 7)]) :=
  commit_failure_tolerance_amended
    [CommitPage.mk [CommitNode.mk 5 2 100] none true] []
    [CommitAggregate.mk 1 1 1 (some 3) (some 4)]
    [CommitAggregate.mk 2 0 1 (some 7) (some 7)]
    (by decide)

/-! ### The repository-listing loop -/

theorem runRepoLoop_consumes (mid : List RepoPage) :
    ∀ (c : Option String) (last : RepoPage),
      (∀ p ∈ mid, p.hasNextPage = true) → last.hasNextPage = false →
      runRepoLoop c ((mid ++ [last]).map Except.ok) =
        Except.ok (((mid ++ [last]).map (fun p => p.nodes)).flatten,
          c :: (mid.map (fun p => p.endCursor))) := by
  induction mid with
  | nil =>
    intro c last _ hlast
    simp [runRepoLoop, hlast]
  | cons p ms ih =>
    intro c last h hlast
    have hp := h p (List.mem_cons_self p ms)
    have hms : ∀ q ∈ ms, q.hasNextPage = true :=
      fun q hq => h q (List.mem_cons_of_mem p hq)
    simp only [List.cons_append, List.map_cons, runRepoLoop, hp, if_true, ite_true,
      List.append_eq]
    rw [ih p.endCursor last hms hlast]
    simp

theorem runRepoLoop_error (gp : List RepoPage) :
    ∀ (c : Option String) (e : QueryError) (rest : List RepoResponse),
      (∀ p ∈ gp, p.hasNextPage = true) →
      runRepoLoop c (gp.map Except.ok ++ Except.error e :: rest) = Except.error e := by
  induction gp with
  | nil => intro c e rest _; rfl
  | cons p ps ih =>
    intro c e rest h
    have hp := h p (List.mem_cons_self p ps)
    have hps : ∀ q ∈ ps, q.hasNextPage = true :=
      fun q hq => h q (List.mem_cons_of_mem p hq)
    simp only [List.cons_append, List.map_cons, runRepoLoop, hp, if_true, ite_true,
      List.append_eq]
    rw [ih p.endCursor e rest hps]

/-- C5: over any finite page sequence whose intermediate pages report
`hasNextPage = true` and whose last page reports `hasNextPage = false`,
the repository-listing loop requests the first page with cursor `None`,
requests each following page with the previous page's `endCursor`,
accumulates the repository nodes in page order, stops after the last
page, and issues exactly one request per page. -/
theorem repo_pagination_consumes_all_pages (mid : List RepoPage) (last : RepoPage)
    (hmid : ∀ p ∈ mid, p.hasNextPage = true) (hlast : last.hasNextPage = false) :
    get_all_repositories ((mid ++ [last]).map Except.ok) =
      Except.ok (((mid ++ [last]).map (fun p => p.nodes)).flatten,
        none :: (mid.map (fun p => p.endCursor))) ∧
    (none :: (mid.map (fun p => p.endCursor))).length = (mid ++ [last]).length := by
  constructor
  · exact runRepoLoop_consumes mid none last hmid hlast
  · simp

/-- Witness for C5: two pages, the first full and pointing at the second
via its cursor; the loop returns both pages' nodes in order and the
request trace `[None, endCursor-of-page-1]`. -/
theorem repo_pagination_consumes_all_pages_witness :
    get_all_repositories
        (([RepoPage.mk [RepoNode.mk "a" "o" 1 0 []] (some "c1") true] ++
            [RepoPage.mk [RepoNode.mk "b" "o" 2 0 []] none false]).map Except.ok) =
      Except.ok
        ((([RepoPage.mk [RepoNode.mk "a" "o" 1 0 []] (some "c1") true] ++
            [RepoPage.mk [RepoNode.mk "b" "o" 2 0 []] none false]).map
              (fun p => p.nodes)).flatten,
          none :: ([RepoPage.mk [RepoNode.mk "a" "o" 1 0 []] (some "c1") true].map
              (fun p => p.endCursor))) ∧
    (none :: ([RepoPage.mk [RepoNode.mk "a" "o" 1 0 []] (some "c1") true].map
        (fun p => p.endCursor))).length =
      ([RepoPage.mk [RepoNode.mk "a" "o" 1 0 []] (some "c1") true] ++
        [RepoPage.mk [RepoNode.mk "b" "o" 2 0 []] none false]).length :=
  repo_pagination_consumes_all_pages
    [RepoPage.mk [RepoNode.mk "a" "o" 1 0 []] (some "c1") true]
    (RepoPage.mk [RepoNode.mk "b" "o" 2 0 []] none false)
    (by decide) (by decide)

/-- C7: an error raised while listing repositories (HTTP failure from
`raise_for_status` or a malformed answer) is not absorbed:
`get_all_repositories` has no handler, so the error propagates out of
the listing loop whichever request it hits, and the run aborts. -/
theorem repo_listing_error_propagates (gp : List RepoPage) (e : QueryError)
    (rest : List RepoResponse) (hgp : ∀ p ∈ gp, p.hasNextPage = true) :
    get_all_repositories (gp.map Except.ok ++ Except.error e :: rest) = Except.error e :=
  runRepoLoop_error gp none e rest hgp

/-- Witness for C7: a rejected first request (HTTP 401) propagates out of
the repository listing. -/
theorem repo_listing_error_propagates_witness :
    get_all_repositories
        (([] : List RepoPage).map Except.ok ++
          Except.error (QueryError.httpError 401) :: []) =
      Except.error (QueryError.httpError 401) :=
  repo_listing_error_propagates [] (QueryError.httpError 401) [] (by simp)

/-! ### The most-starred repository -/

theorem find?_cons_pos (p : RepoNode → Bool) (a : RepoNode) (l : List RepoNode)
    (h : p a = true) : List.find? p (a :: l) = some a :=
  List.find?_cons_of_pos l h

theorem find?_cons_neg (p : RepoNode → Bool) (a : RepoNode) (l : List RepoNode)
    (h : ¬ p a = true) : List.find? p (a :: l) = List.find? p l :=
  List.find?_cons_of_neg l h

theorem pickMax_foldl (xs : List RepoNode) :
    ∀ b : RepoNode,
      some (List.foldl pickMax b xs) =
        List.find? (fun r => r.stargazerCount == maxStars (b :: xs)) (b :: xs) := by
  induction xs with
  | nil =>
    intro b
    have hM : maxStars [b] = b.stargazerCount := by simp [maxStars]
    simp only [hM, List.foldl_nil]
    rw [find?_cons_pos (fun r => r.stargazerCount == b.stargazerCount) b [] (by simp)]
  | cons x xs ih =>
    intro b
    rw [List.foldl_cons]
    by_cases h : b.stargazerCount < x.stargazerCount
    · have hpick : pickMax b x = x := by simp [pickMax, gt_iff_lt, h]
      have hxle : x.stargazerCount ≤ maxStars (x :: xs) := by
        simp only [maxStars]
        exact le_max_left _ _
      have hM : maxStars (b :: x :: xs) = maxStars (x :: xs) := by
        have hle : b.stargazerCount ≤ maxStars (x :: xs) :=
          Nat.le_trans (Nat.le_of_lt h) hxle
        simp only [maxStars] at hle ⊢
        exact max_eq_right hle
      have hpred : (fun r : RepoNode => r.stargazerCount == maxStars (b :: x :: xs)) =
          (fun r : RepoNode => r.stargazerCount == maxStars (x :: xs)) :=
        funext (fun r => by rw [hM])
      have hbne : ¬ ((b.stargazerCount == maxStars (x :: xs)) = true) := by
        simp only [beq_iff_eq]
        omega
      rw [hpick, ih x, hpred,
        find?_cons_neg (fun r => r.stargazerCount == maxStars (x :: xs)) b (x :: xs) hbne]
    · have hpick : pickMax b x = b := by simp [pickMax, gt_iff_lt, h]
      have hxb : x.stargazerCount ≤ b.stargazerCount := Nat.le_of_not_lt h
      have hM : maxStars (b :: x :: xs) = maxStars (b :: xs) := by
        simp only [maxStars]
        rw [← max_assoc, max_eq_left hxb]
      have hpred : (fun r : RepoNode => r.stargazerCount == maxStars (b :: x :: xs)) =
          (fun r : RepoNode => r.stargazerCount == maxStars (b :: xs)) :=
        funext (fun r => by rw [hM])
      rw [hpick, ih b, hpred]
      by_cases hb : (b.stargazerCount == maxStars (b :: xs)) = true
      · rw [find?_cons_pos (fun r => r.stargazerCount == maxStars (b :: xs)) b xs hb,
          find?_cons_pos (fun r => r.stargazerCount == maxStars (b :: xs)) b (x :: xs) hb]
      · have hble : b.stargazerCount ≤ maxStars (b :: xs) := by
          simp only [maxStars]
          exact le_max_left _ _
        have hbne : b.stargazerCount ≠ maxStars (b :: xs) := by
          intro hc
          exact hb (by simp [hc])
        have hx : ¬ ((x.stargazerCount == maxStars (b :: xs)) = true) := by
          simp only [beq_iff_eq]
          omega
        rw [find?_cons_neg (fun r => r.stargazerCount == maxStars (b :: xs)) b xs hb,
          find?_cons_neg (fun r => r.stargazerCount == maxStars (b :: xs)) b (x :: xs) hb,
          find?_cons_neg (fun r => r.stargazerCount == maxStars (b :: xs)) x xs hx]

/-- C4: `most_popular_repo` selects the first repository, in listing
order, whose star count equals the maximum star count of the list, and
on an empty repository list it is `None` rather than an error. -/
theorem most_popular_repo_first_max (repos : List RepoNode) :
    mostPopularRepo repos =
      repos.find? (fun r => r.stargazerCount == maxStars repos) ∧
    mostPopularRepo ([] : List RepoNode) = none := by
  constructor
  · cases repos with
    | nil => rfl
    | cons b xs =>
      simp only [mostPopularRepo]
      exact pickMax_foldl xs b
  · rfl

/-! ### The language tally -/

theorem langSizeSum_cons (e : LangEdge) (rest : List LangEdge) (n : String) :
    langSizeSum n (e :: rest) =
      if e.name = n then e.size + langSizeSum n rest else langSizeSum n rest := by
  simp only [langSizeSum, List.filter_cons]
  by_cases h : e.name = n
  · simp [h]
  · simp [h]

theorem lookup_addEdge (stats : List (String × LangData)) (e : LangEdge) (n : String) :
    List.lookup n (addEdge stats e) =
      if n = e.name then
        (match List.lookup n stats with
         | some d => some (LangData.mk (d.size + e.size) d.color)
         | none => some (LangData.mk e.size e.color))
      else List.lookup n stats := by
  induction stats with
  | nil =>
    by_cases h : n = e.name
    · have hb : (n == e.name) = true := by simp [h]
      simp [addEdge, List.lookup, h, hb]
    · have hb : (n == e.name) = false := by simp [h]
      simp [addEdge, List.lookup, h, hb]
  | cons kd rest ih =>
    obtain ⟨k, d⟩ := kd
    by_cases hk : k = e.name
    · by_cases hn : n = e.name
      · have hnk : n = k := by rw [hn, hk]
        have hb : (n == k) = true := by simp [hnk]
        simp [addEdge, hk, List.lookup, hb, hn]
      · have hnk : ¬ (n = k) := by rw [hk]; exact hn
        have hb : (n == k) = false := by simp [hnk]
        have hb2 : (n == e.name) = false := by simp [hn]
        simp [addEdge, hk, List.lookup, hb, hb2, hn]
    · by_cases hnk : n = k
      · have hn : ¬ (n = e.name) := by rw [hnk]; exact hk
        have hb : (n == k) = true := by simp [hnk]
        simp [addEdge, hk, List.lookup, hb, hn]
      · have hb : (n == k) = false := by simp [hnk]
        simp [addEdge, hk, List.lookup, hb, ih]

theorem lookup_foldl_addEdge (edges : List LangEdge) :
    ∀ (stats : List (String × LangData)) (n : String),
      List.lookup n (List.foldl addEdge stats edges) =
        match List.lookup n stats with
        | some d => some (LangData.mk (d.size + langSizeSum n edges) d.color)
        | none =>
          match List.find? (fun e => e.name == n) edges with
          | some e0 => some (LangData.mk (langSizeSum n edges) e0.color)
          | none => none := by
  induction edges with
  | nil =>
    intro stats n
    cases h : List.lookup n stats <;> simp [langSizeSum, h]
  | cons e rest ih =>
    intro stats n
    rw [List.foldl_cons, ih (addEdge stats e) n, lookup_addEdge stats e n]
    by_cases hn : n = e.name
    · subst hn
      have hfind : List.find? (fun q => q.name == e.name) (e :: rest) = some e := by
        rw [List.find?_cons_of_pos rest (by simp)]
      have hsum : langSizeSum e.name (e :: rest) = e.size + langSizeSum e.name rest := by
        rw [langSizeSum_cons]
        simp
      cases h : List.lookup e.name stats <;>
        simp [h, hfind, hsum, Nat.add_assoc]
    · have hfind : List.find? (fun q => q.name == n) (e :: rest) =
          List.find? (fun q => q.name == n) rest := by
        rw [List.find?_cons_of_neg rest (by simp [hn]; intro hc; exact hn hc.symm)]
      have hsum : langSizeSum n (e :: rest) = langSizeSum n rest := by
        rw [langSizeSum_cons]
        have : ¬ (e.name = n) := fun hc => hn hc.symm
        simp [this]
      cases h : List.lookup n stats <;>
        simp [hn, h, hfind, hsum]

/-- C8: in the language tally built by `main`, each language's size is
the sum of the sizes of every edge carrying that language name across
all descriptors, and its color is the color of the first such edge —
never overwritten by a later one.  A language with no edge is absent. -/
theorem language_tally_sum_first_color (edges : List LangEdge) (n : String) :
    List.lookup n (buildLangStats edges) =
      Option.map (fun e0 => LangData.mk (langSizeSum n edges) e0.color)
        (List.find? (fun e => e.name == n) edges) := by
  have h := lookup_foldl_addEdge edges [] n
  simp only [buildLangStats]
  rw [h]
  cases hf : List.find? (fun e => e.name == n) edges <;> simp [List.lookup, hf]

theorem addEdge_size_sum (stats : List (String × LangData)) (e : LangEdge) :
    ((addEdge stats e).map (fun q => q.2.size)).sum =
      (stats.map (fun q => q.2.size)).sum + e.size := by
  induction stats with
  | nil => simp [addEdge]
  | cons kd rest ih =>
    obtain ⟨k, d⟩ := kd
    by_cases hk : k = e.name
    · simp only [addEdge, hk, if_true, ite_true, List.map_cons, List.sum_cons]
      omega
    · simp only [addEdge, hk, if_false, ite_false, List.map_cons, List.sum_cons, ih]
      omega

theorem buildLangStats_size_sum_general (edges : List LangEdge) :
    ∀ stats : List (String × LangData),
      ((List.foldl addEdge stats edges).map (fun q => q.2.size)).sum =
        (stats.map (fun q => q.2.size)).sum + langTotalSize edges := by
  induction edges with
  | nil => intro stats; simp [langTotalSize]
  | cons e rest ih =>
    intro stats
    rw [List.foldl_cons, ih (addEdge stats e), addEdge_size_sum]
    simp only [langTotalSize, List.map_cons, List.sum_cons]
    omega

/-- C3: the percentage shown for every entry of the language tally is
`size / total * 100` where the total the code divides by equals the sum
of the accumulated sizes across all languages of the tally; when that
total is `0` the guard yields `0` instead of dividing. -/
theorem language_percentage_safe (edges : List LangEdge) (q : String × LangData)
    (hq : q ∈ buildLangStats edges) :
    ((buildLangStats edges).map (fun r => r.2.size)).sum = langTotalSize edges ∧
    languagePercentage q.2.size (langTotalSize edges) =
      (if 0 < langTotalSize edges
        then ((q.2.size : Rat) / (langTotalSize edges : Rat)) * 100 else 0) ∧
    languagePercentage q.2.size 0 = 0 := by
  refine ⟨?_, rfl, rfl⟩
  have h := buildLangStats_size_sum_general edges []
  simpa [buildLangStats] using h

/-- Witness for C3: a two-language tally; the Python entry's percentage
is `10 / 40 * 100` and the zero-total guard yields `0`. -/
theorem language_percentage_safe_witness :
    ((buildLangStats [LangEdge.mk "Py" 10 "blue", LangEdge.mk "C" 30 "gray"]).map
        (fun r => r.2.size)).sum =
      langTotalSize [LangEdge.mk "Py" 10 "blue", LangEdge.mk "C" 30 "gray"] ∧
    languagePercentage 10
        (langTotalSize [LangEdge.mk "Py" 10 "blue", LangEdge.mk "C" 30 "gray"]) =
      (if 0 < langTotalSize [LangEdge.mk "Py" 10 "blue", LangEdge.mk "C" 30 "gray"]
        then ((10 : Rat) / ((langTotalSize [LangEdge.mk "Py" 10 "blue", LangEdge.mk "C" 30 "gray"] : Nat) : Rat)) * 100
        else 0) ∧
    languagePercentage 10 0 = 0 :=
  language_percentage_safe [LangEdge.mk "Py" 10 "blue", LangEdge.mk "C" 30 "gray"]
    ("Py", LangData.mk 10 "blue") (by decide)

/-! ### The date invariant -/

theorem identityAggregate_inv : aggInv identityAggregate := by
  refine ⟨by simp [identityAggregate], by simp [identityAggregate], ?_⟩
  intro e l he hl
  simp [identityAggregate] at he

theorem foldNode_keeps (acc : CommitAggregate) (c : CommitNode)
    (h : ∃ e l, acc.earliest = some e ∧ acc.latest = some l ∧ e ≤ l) :
    (∃ e l, (foldNode acc c).earliest = some e ∧ (foldNode acc c).latest = some l ∧ e ≤ l) ∧
    (foldNode acc c).commits = acc.commits := by
  obtain ⟨e, l, he, hl, hel⟩ := h
  refine ⟨?_, by simp [foldNode]⟩
  simp only [foldNode, he, hl]
  split_ifs with h1 h2 <;> exact ⟨_, _, rfl, rfl, by omega⟩

theorem foldl_foldNode_keeps (nodes : List CommitNode) :
    ∀ acc : CommitAggregate,
      (∃ e l, acc.earliest = some e ∧ acc.latest = some l ∧ e ≤ l) →
      ((∃ e l, (List.foldl foldNode acc nodes).earliest = some e ∧
          (List.foldl foldNode acc nodes).latest = some l ∧ e ≤ l) ∧
        (List.foldl foldNode acc nodes).commits = acc.commits) := by
  induction nodes with
  | nil => intro acc h; exact ⟨h, rfl⟩
  | cons x xs ih =>
    intro acc h
    have hstep := foldNode_keeps acc x h
    have hrest := ih (foldNode acc x) hstep.1
    rw [List.foldl_cons]
    exact ⟨hrest.1, by rw [hrest.2, hstep.2]⟩

theorem foldNode_dates (acc : CommitAggregate) (c : CommitNode)
    (hiff : acc.earliest = none ↔ acc.latest = none)
    (hord : ∀ e l : Int, acc.earliest = some e → acc.latest = some l → e ≤ l) :
    ∃ e l, (foldNode acc c).earliest = some e ∧ (foldNode acc c).latest = some l ∧ e ≤ l := by
  cases hae : acc.earliest with
  | none =>
    have hal : acc.latest = none := hiff.mp hae
    exact ⟨c.committedDate, c.committedDate, by simp [foldNode, hae, hal],
      by simp [foldNode, hae, hal], le_refl _⟩
  | some e0 =>
    cases hal : acc.latest with
    | none => exact absurd (hiff.mpr hal) (by rw [hae]; simp)
    | some l0 =>
      exact (foldNode_keeps acc c ⟨e0, l0, hae, hal, hord e0 l0 hae hal⟩).1

theorem foldPage_inv (acc : CommitAggregate) (x : CommitNode) (xs : List CommitNode)
    (hinv : aggInv acc) :
    aggInv (foldPage acc (x :: xs)) ∧
    (foldPage acc (x :: xs)).commits = acc.commits + (x :: xs).length := by
  obtain ⟨hiff1, hiff2, hord⟩ := hinv
  have hdates : ∃ e l,
      (foldNode { acc with commits := acc.commits + (x :: xs).length } x).earliest = some e ∧
      (foldNode { acc with commits := acc.commits + (x :: xs).length } x).latest = some l ∧
      e ≤ l :=
    foldNode_dates { acc with commits := acc.commits + (x :: xs).length } x hiff1 hord
  have hkeep := foldl_foldNode_keeps xs
    (foldNode { acc with commits := acc.commits + (x :: xs).length } x) hdates
  have hfp : foldPage acc (x :: xs) =
      List.foldl foldNode
        (foldNode { acc with commits := acc.commits + (x :: xs).length } x) xs := rfl
  obtain ⟨⟨e, l, he, hl, hel⟩, hcom⟩ := hkeep
  have hE : (foldPage acc (x :: xs)).earliest = some e := by rw [hfp]; exact he
  have hL : (foldPage acc (x :: xs)).latest = some l := by rw [hfp]; exact hl
  have hC : (foldPage acc (x :: xs)).commits = acc.commits + (x :: xs).length := by
    rw [hfp, hcom]
    simp [foldNode]
  refine ⟨⟨?_, ?_, ?_⟩, hC⟩
  · rw [hE, hL]
    simp
  · rw [hE, hC]
    simp [List.length_cons]
  · intro e1 l1 he1 hl1
    rw [hE] at he1
    rw [hL] at hl1
    have h1 : e = e1 := Option.some.inj he1
    have h2 : l = l1 := Option.some.inj hl1
    omega

theorem runCommitLoop_inv (rs : List CommitResponse) :
    ∀ acc : CommitAggregate, aggInv acc → aggInv (runCommitLoop acc rs).1 := by
  induction rs with
  | nil => intro acc h; exact h
  | cons r rest ih =>
    intro acc h
    cases r with
    | failure => exact h
    | noHistory => exact h
    | page p =>
      cases hn : p.nodes with
      | nil =>
        have hrun : runCommitLoop acc (CommitResponse.page p :: rest) = (acc, 1) := by
          simp [runCommitLoop, hn]
        rw [hrun]
        exact h
      | cons x xs =>
        have hinv2 := foldPage_inv acc x xs h
        have hne : p.nodes.isEmpty = false := by rw [hn]; rfl
        by_cases hnp : p.hasNextPage = true
        · have hrun : runCommitLoop acc (CommitResponse.page p :: rest) =
              ((runCommitLoop (foldPage acc p.nodes) rest).1,
               (runCommitLoop (foldPage acc p.nodes) rest).2 + 1) := by
            simp [runCommitLoop, hne, hnp]
          rw [hrun]
          have hfold : aggInv (foldPage acc p.nodes) := by rw [hn]; exact hinv2.1
          exact ih (foldPage acc p.nodes) hfold
        · have hfalse : p.hasNextPage = false := by
            revert hnp
            cases p.hasNextPage <;> simp
          have hrun : runCommitLoop acc (CommitResponse.page p :: rest) =
              (foldPage acc p.nodes, 1) := by
            simp [runCommitLoop, hne, hfalse]
          rw [hrun]
          rw [hn]
          exact hinv2.1

theorem mergeAggregate_inv (a b : CommitAggregate) (ha : aggInv a) (hb : aggInv b) :
    aggInv (mergeAggregate a b) := by
  obtain ⟨ha1, ha2, ha3⟩ := ha
  obtain ⟨hb1, hb2, hb3⟩ := hb
  have hmE : (mergeAggregate a b).earliest = mergeEarliest a.earliest b.earliest := rfl
  have hmL : (mergeAggregate a b).latest = mergeLatest a.latest b.latest := rfl
  have hmC : (mergeAggregate a b).commits = a.commits + b.commits := rfl
  cases hae : a.earliest with
  | none =>
    have hal : a.latest = none := ha1.mp hae
    have hac : a.commits = 0 := ha2.mp hae
    cases hbe : b.earliest with
    | none =>
      have hbl : b.latest = none := hb1.mp hbe
      have hbc : b.commits = 0 := hb2.mp hbe
      refine ⟨?_, ?_, ?_⟩
      · rw [hmE, hmL, hae, hal, hbe, hbl]
        simp [mergeEarliest, mergeLatest]
      · rw [hmE, hmC, hae, hbe, hac, hbc]
        simp [mergeEarliest]
      · intro e l he hl
        rw [hmE, hae, hbe] at he
        simp [mergeEarliest] at he
    | some eb =>
      obtain ⟨lb, hblb⟩ : ∃ lb, b.latest = some lb := by
        cases hblc : b.latest with
        | none => exact absurd (hb1.mpr hblc) (by rw [hbe]; simp)
        | some lb => exact ⟨lb, rfl⟩
      have hbc : b.commits ≠ 0 := by
        intro hc
        have hnone := hb2.mpr hc
        rw [hbe] at hnone
        cases hnone
      have hordb := hb3 eb lb hbe hblb
      refine ⟨?_, ?_, ?_⟩
      · rw [hmE, hmL, hae, hal, hbe, hblb]
        simp [mergeEarliest, mergeLatest]
      · rw [hmE, hmC, hae, hbe, hac]
        simp [mergeEarliest]
        omega
      · intro e l he hl
        rw [hmE, hae, hbe] at he
        rw [hmL, hal, hblb] at hl
        simp [mergeEarliest] at he
        simp [mergeLatest] at hl
        omega
  | some ea =>
    obtain ⟨la, hala⟩ : ∃ la, a.latest = some la := by
      cases halc : a.latest with
      | none => exact absurd (ha1.mpr halc) (by rw [hae]; simp)
      | some la => exact ⟨la, rfl⟩
    have hac : a.commits ≠ 0 := by
      intro hc
      have hnone := ha2.mpr hc
      rw [hae] at hnone
      cases hnone
    have horda := ha3 ea la hae hala
    cases hbe : b.earliest with
    | none =>
      have hbl : b.latest = none := hb1.mp hbe
      refine ⟨?_, ?_, ?_⟩
      · rw [hmE, hmL, hae, hala, hbe, hbl]
        simp [mergeEarliest, mergeLatest]
      · rw [hmE, hmC, hae, hbe]
        simp [mergeEarliest]
        omega
      · intro e l he hl
        rw [hmE, hae, hbe] at he
        rw [hmL, hala, hbl] at hl
        simp [mergeEarliest] at he
        simp [mergeLatest] at hl
        omega
    | some eb =>
      obtain ⟨lb, hblb⟩ : ∃ lb, b.latest = some lb := by
        cases hblc : b.latest with
        | none => exact absurd (hb1.mpr hblc) (by rw [hbe]; simp)
        | some lb => exact ⟨lb, rfl⟩
      have hordb := hb3 eb lb hbe hblb
      refine ⟨?_, ?_, ?_⟩
      · rw [hmE, hmL, hae, hala, hbe, hblb, mergeEarliest_some_some, mergeLatest_some_some]
        simp
      · rw [hmE, hmC, hae, hbe, mergeEarliest_some_some]
        simp
        omega
      · intro e l he hl
        rw [hmE, hae, hbe, mergeEarliest_some_some] at he
        rw [hmL, hala, hblb, mergeLatest_some_some] at hl
        have h1 : min ea eb = e := Option.some.inj he
        have h2 : max la lb = l := Option.some.inj hl
        have h3 : min ea eb ≤ ea := min_le_left _ _
        have h4 : la ≤ max la lb := le_max_left _ _
        omega

theorem foldl_merge_inv (l : List CommitAggregate) :
    ∀ acc : CommitAggregate, aggInv acc → (∀ a ∈ l, aggInv a) →
      aggInv (List.foldl mergeAggregate acc l) := by
  induction l with
  | nil => intro acc h _; exact h
  | cons x xs ih =>
    intro acc h hl
    rw [List.foldl_cons]
    exact ih (mergeAggregate acc x)
      (mergeAggregate_inv acc x h (hl x (List.mem_cons_self x xs)))
      (fun a ha => hl a (List.mem_cons_of_mem x ha))

/-- C9: every aggregate produced by `get_commit_stats` has its earliest
and latest dates absent together (exactly when no commit was counted)
and, when both are present, earliest not after latest; and the global
aggregate `main` folds from any such per-repository aggregates satisfies
the same invariant. -/
theorem commit_aggregate_dates_invariant (responses : List CommitResponse)
    (l : List CommitAggregate) (hl : ∀ a ∈ l, aggInv a) :
    aggInv (get_commit_stats responses).1 ∧ aggInv (foldAggregates l) :=
  ⟨runCommitLoop_inv responses identityAggregate identityAggregate_inv,
   foldl_merge_inv l identityAggregate identityAggregate_inv hl⟩

/-- Witness for C9: a one-page run with one commit, and the empty fold. -/
theorem commit_aggregate_dates_invariant_witness :
    aggInv (get_commit_stats
        [CommitResponse.page (CommitPage.mk [CommitNode.mk 1 2 5] none false)]).1 ∧
    aggInv (foldAggregates []) :=
  commit_aggregate_dates_invariant
    [CommitResponse.page (CommitPage.mk [CommitNode.mk 1 2 5] none false)] []
    (by simp)
